import Mathlib

/-
Verification of the BlitzForge password-recovery core.

Shallow embedding of the Rust sources:
  src/core/generator.rs  (DictionaryGenerator, MaskGenerator, BruteForceGenerator)
  src/core/hasher.rs     (hash dispatch, salted digests)
  src/core/target.rs     (Target, TargetMatch)
  src/core/engine.rs     (Engine::run, Statistics)
  src/cli/commands.rs    (target loading)

Conventions: a Rust byte is a Nat (values below 256 in practice), a Rust
byte string (Vec of u8) is a List Nat, a Rust String is a List Char, and
u64 counters are Nats reduced modulo 2 to the 64 wherever the code performs
u64 arithmetic. External hash primitives (md5, sha1, sha256, the custom
blitzhash) live in foreign crates or in a file not present under src, so
they are treated as parameters: every definition that needs one takes the
primitive digest function as an argument.
-/

namespace BlitzForge


/-! Odometer core shared by MaskGenerator and BruteForceGenerator.

Both generators keep a vector of position indices (called current in the
source) and advance it right-to-left: increment the rightmost digit; on
overflow reset it to zero and carry left (MaskGenerator.increment and
BruteForceGenerator.increment_current in src/core/generator.rs).
Digit lists and base lists are most-significant first, exactly as the
source stores them. -/

/-- digitsLt ds bs holds when the two lists have the same length and every
digit is strictly below its base. This is the in-bounds invariant of the
index vectors of both generators. -/
def digitsLt : List Nat → List Nat → Bool
  | [], [] => true
  | d :: ds, b :: bs => decide (d < b) && digitsLt ds bs
  | _, _ => false

/-- Mixed-radix value of a digit vector (most significant digit first). -/
def rankOdo : List Nat → List Nat → Nat
  | d :: ds, _ :: bs => d * bs.prod + rankOdo ds bs
  | _, _ => 0

/-- One odometer step, carrying from the rightmost position: this is the
loop of MaskGenerator.increment and BruteForceGenerator.increment_current
(generator.rs lines 149-158 and 222-231); none means the whole vector
overflowed, in which case the source has reset every digit to zero. -/
def incOdo : List Nat → List Nat → Option (List Nat)
  | d :: ds, b :: bs =>
      match incOdo ds bs with
      | some ds' => some (d :: ds')
      | none => if d + 1 < b then some ((d + 1) :: List.replicate ds.length 0) else none
  | _, _ => none

/-- The full enumeration of the Cartesian product of the per-position
charsets in odometer order (rightmost position varying fastest). -/
def enumOdo : List (List Nat) → List (List Nat)
  | [] => [[]]
  | cs :: p => cs.flatMap (fun c => (enumOdo p).map (fun t => c :: t))

/-- The candidate a generator emits from digit vector ds over charsets p:
position i contributes character p[i][ds[i]] (generator.rs line 172). -/
def zipSelect (p : List (List Nat)) (ds : List Nat) : List Nat :=
  List.zipWith (fun cs d => cs.getD d 0) p ds

/-! Mask generator (src/core/generator.rs lines 69-198). -/

/-- u64 modulus: Rust u64 arithmetic wraps modulo 2 to the 64 in release
builds. -/
def U64MOD : Nat := 2 ^ 64

/-- u64::MAX, the saturation bound of saturating u64 arithmetic. -/
def U64MAX : Nat := 2 ^ 64 - 1

/-- State of MaskGenerator: per-position charsets, the index vector, and
the exhausted flag (generator.rs lines 107-111). -/
structure MaskGen where
  pattern : List (List Nat)
  current : List Nat
  exhausted : Bool

/-- CharSet.lowercase (generator.rs line 76). -/
def charsetLowercase : List Nat := List.range' 97 26

/-- CharSet.uppercase (generator.rs line 82). -/
def charsetUppercase : List Nat := List.range' 65 26

/-- CharSet.digits (generator.rs line 88). -/
def charsetDigits : List Nat := List.range' 48 10

/-- CharSet.special (generator.rs line 94). -/
def charsetSpecial : List Nat :=
  [33, 64, 35, 36, 37, 94, 38, 42, 40, 41, 95, 43, 45, 61, 91, 93, 123, 125,
   124, 59, 58, 44, 46, 60, 62, 63]

/-- The class table of MaskGenerator.new (generator.rs lines 122-128). -/
def charsetFor (c : Char) : Option (List Nat) :=
  if c = 'l' then some charsetLowercase
  else if c = 'u' then some charsetUppercase
  else if c = 'd' then some charsetDigits
  else if c = 's' then some charsetSpecial
  else none

/-- Mask pattern parser, MaskGenerator.new (generator.rs lines 115-138):
a question mark followed by a class letter selects that CharSet, an
unknown class letter is an error, and any other character (including a
trailing lone question mark) is a single-byte literal CharSet via the
Rust cast of the char to u8. -/
def parseMask : List Char → Option (List (List Nat))
  | [] => some []
  | c :: c2 :: rest =>
    if c = '?' then
      match charsetFor c2 with
      | some cs => (parseMask rest).map (fun p => cs :: p)
      | none => none
    else (parseMask (c2 :: rest)).map (fun p => [c.toNat % 256] :: p)
  | [c] => some [[c.toNat % 256]]

/-- MaskGenerator.new final state: index vector of zeros, not exhausted
(generator.rs lines 140-146). -/
def maskNew (m : List Char) : Option MaskGen :=
  (parseMask m).map (fun p =>
    { pattern := p, current := List.replicate p.length 0, exhausted := false })

/-- MaskGenerator.increment (generator.rs lines 149-158): odometer step;
on full overflow every digit has been reset to zero and the exhausted
flag is set. -/
def maskIncrement (s : MaskGen) : MaskGen :=
  match incOdo s.current (s.pattern.map List.length) with
  | some ds => { s with current := ds }
  | none => { s with current := List.replicate s.current.length 0, exhausted := true }

/-- The candidate built from the current index vector (generator.rs
lines 170-173). -/
def maskCand (s : MaskGen) : List Nat := zipSelect s.pattern s.current

/-- The collection loop of MaskGenerator.next_batch (generator.rs lines
167-177): fill up to n slots, stopping early when exhausted. -/
def maskAux : MaskGen → Nat → List (List Nat) × MaskGen
  | s, 0 => ([], s)
  | s, n + 1 =>
    if s.exhausted then ([], s)
    else
      let r := maskAux (maskIncrement s) n
      (maskCand s :: r.1, r.2)

/-- MaskGenerator.next_batch (generator.rs lines 162-184): none when
already exhausted or when the loop produced an empty batch. -/
def maskNextBatch (s : MaskGen) (size : Nat) : Option (List (List Nat)) × MaskGen :=
  if s.exhausted then (none, s)
  else
    let r := maskAux s size
    (if r.1.isEmpty then none else some r.1, r.2)

/-- MaskGenerator.estimated_size (generator.rs lines 186-192): u64
product of the CharSet sizes, wrapping on overflow. -/
def maskEstimatedSize (s : MaskGen) : Nat :=
  (s.pattern.map (fun cs => cs.length)).foldl (fun acc x => acc * x % U64MOD) 1

/-- Repeatedly call a next_batch function until it yields no batch,
concatenating the produced batches; fuel bounds the number of calls. -/
def drainG {σ : Type} (next : σ → Nat → Option (List (List Nat)) × σ) :
    σ → Nat → Nat → List (List Nat)
  | _, _, 0 => []
  | s, size, fuel + 1 =>
    match next s size with
    | (none, _) => []
    | (some batch, s') => batch ++ drainG next s' size fuel

/-- The in-bounds invariant of a mask generator state. -/
def MaskValid (s : MaskGen) : Prop :=
  digitsLt s.current (s.pattern.map List.length) = true

/-- Odometer rank of a mask generator state. -/
def maskRank (s : MaskGen) : Nat := rankOdo s.current (s.pattern.map List.length)

/-- MaskGenerator.new over charsets p gives the initial state. -/
def maskInit (p : List (List Nat)) : MaskGen :=
  { pattern := p, current := List.replicate p.length 0, exhausted := false }

/-! Brute force generator (src/core/generator.rs lines 200-285). -/

/-- State of BruteForceGenerator (generator.rs lines 201-208). -/
structure BFGen where
  charset : List Nat
  minLength : Nat
  maxLength : Nat
  currentLength : Nat
  current : List Nat
  exhausted : Bool

/-- BruteForceGenerator state as built from a byte charset. -/
def bfInitSt (cs : List Nat) (minL maxL : Nat) : BFGen :=
  { charset := cs, minLength := minL, maxLength := maxL,
    currentLength := minL, current := List.replicate minL 0, exhausted := false }

/-- BruteForceGenerator.new (generator.rs lines 211-220): the charset is
the byte string of the given text. -/
def bfNew (charset : List Char) (minL maxL : Nat) : BFGen :=
  bfInitSt (charset.map Char.toNat) minL maxL

/-- The advance step inside next_batch (generator.rs lines 254-259):
increment_current; when it overflows (all digits reset to zero), grow
current_length, and only when the new length still fits below max_length
is the index vector re-allocated at the new length. -/
def bfAdvance (s : BFGen) : BFGen :=
  match incOdo s.current (List.replicate s.current.length s.charset.length) with
  | some ds => { s with current := ds }
  | none =>
    if s.currentLength + 1 ≤ s.maxLength then
      { s with currentLength := s.currentLength + 1,
               current := List.replicate (s.currentLength + 1) 0 }
    else
      { s with currentLength := s.currentLength + 1,
               current := List.replicate s.current.length 0 }

/-- The candidate built from the current index vector (generator.rs
lines 248-250). -/
def bfCand (s : BFGen) : List Nat := s.current.map (fun i => s.charset.getD i 0)

/-- The collection loop of BruteForceGenerator.next_batch (generator.rs
lines 242-260): the length check at the top of the loop sets the
exhausted flag and breaks. -/
def bfAux : BFGen → Nat → List (List Nat) × BFGen
  | s, 0 => ([], s)
  | s, n + 1 =>
    if s.maxLength < s.currentLength then ([], { s with exhausted := true })
    else
      let r := bfAux (bfAdvance s) n
      (bfCand s :: r.1, r.2)

/-- BruteForceGenerator.next_batch (generator.rs lines 235-267). -/
def bfNextBatch (s : BFGen) (size : Nat) : Option (List (List Nat)) × BFGen :=
  if s.exhausted then (none, s)
  else
    let r := bfAux s size
    (if r.1.isEmpty then none else some r.1, r.2)

/-- BruteForceGenerator.estimated_size (generator.rs lines 269-278):
saturating u64 sum of saturating u64 powers; the exponent passes through
a cast of usize to u32. -/
def bfEstimatedSize (s : BFGen) : Nat :=
  (List.range' s.minLength (s.maxLength + 1 - s.minLength)).foldl
    (fun total len => min (total + min (s.charset.length ^ (len % 2 ^ 32)) U64MAX) U64MAX) 0

/-- All strings of length k over charset cs, in odometer order. -/
def enumLen (cs : List Nat) (k : Nat) : List (List Nat) := enumOdo (List.replicate k cs)

/-- The full brute-force keyspace: lengths minL, minL+1, ..., maxL in
that order, each in odometer order. -/
def enumBF (cs : List Nat) (minL maxL : Nat) : List (List Nat) :=
  (List.range' minL (maxL + 1 - minL)).flatMap (enumLen cs)

/-- The exact keyspace size: sum over k of the size of charset to the k. -/
def bfTrueSize (cs : List Nat) (minL maxL : Nat) : Nat :=
  ((List.range' minL (maxL + 1 - minL)).map (fun k => cs.length ^ k)).sum

/-- The invariant of brute-force states: while the current length has not
run past max_length, the index vector has that length and every index is
below the charset size. -/
def BFInv (s : BFGen) : Prop :=
  s.currentLength ≤ s.maxLength →
    (digitsLt s.current (List.replicate s.current.length s.charset.length) = true ∧
     s.current.length = s.currentLength)

/-- Odometer rank of the current index vector. -/
def bfRank (s : BFGen) : Nat :=
  rankOdo s.current (List.replicate s.current.length s.charset.length)

/-- Candidates not yet produced by a brute-force state. -/
def bfSuffix (s : BFGen) : List (List Nat) :=
  if s.maxLength < s.currentLength then []
  else (enumLen s.charset s.currentLength).drop (bfRank s) ++
    (List.range' (s.currentLength + 1) (s.maxLength - s.currentLength)).flatMap
      (enumLen s.charset)

/-! Dictionary generator (src/core/generator.rs lines 12-67). The reader
over the wordlist file is modelled as the list of raw lines still to be
read; read_line returning Ok(0) corresponds to the empty list. -/

/-- ASCII whitespace, as trimmed from wordlist lines. -/
def isAsciiWs (b : Nat) : Bool :=
  b == 9 || b == 10 || b == 11 || b == 12 || b == 13 || b == 32

/-- Trim leading and trailing whitespace from a byte line. -/
def trimAscii (l : List Nat) : List Nat :=
  ((l.dropWhile isAsciiWs).reverse.dropWhile isAsciiWs).reverse

/-- The read loop of DictionaryGenerator.next_batch (generator.rs lines
37-49): exactly size read_line calls unless EOF arrives first; a line
that trims to empty is skipped but still consumes one loop iteration. -/
def dictAux : List (List Nat) → Nat → List (List Nat) × List (List Nat)
  | ls, 0 => ([], ls)
  | [], _ + 1 => ([], [])
  | l :: ls, n + 1 =>
    let t := trimAscii l
    let r := dictAux ls n
    (if t.isEmpty then r.1 else t :: r.1, r.2)

/-- DictionaryGenerator.next_batch (generator.rs lines 34-56): none
whenever the collected batch is empty, whether or not EOF was reached. -/
def dictNextBatch (ls : List (List Nat)) (size : Nat) :
    Option (List (List Nat)) × List (List Nat) :=
  let r := dictAux ls size
  (if r.1.isEmpty then none else some r.1, r.2)

/-! Hash dispatch (src/core/hasher.rs). The primitive digest functions
(the custom blitzhash and the md5, sha1, sha256 crates) are external to
src, so each is an abstract function parameter collected in HashPrims.
The Md4 hasher uses the Md5 primitive: hasher.rs lines 149-168 use the
Md5 state as an acknowledged placeholder. -/

/-- Algorithm (hasher.rs lines 10-16). -/
inductive Algorithm where
  | blitzhash
  | md5
  | sha1
  | sha256
  | md4
deriving DecidableEq

/-- The Display strings of Algorithm (hasher.rs lines 18-28), used as
bucket keys by the engine. -/
def Algorithm.toName : Algorithm → List Char
  | .blitzhash => ['b', 'l', 'i', 't', 'z', 'h', 'a', 's', 'h']
  | .md5 => ['m', 'd', '5']
  | .sha1 => ['s', 'h', 'a', '1']
  | .sha256 => ['s', 'h', 'a', '2', '5', '6']
  | .md4 => ['m', 'd', '4']

/-- The external primitive digest functions, one per underlying
implementation (there is no md4 primitive in the source: the Md4 hasher
delegates to md5). -/
structure HashPrims where
  blitz : List Nat → List Nat
  md5 : List Nat → List Nat
  sha1 : List Nat → List Nat
  sha256 : List Nat → List Nat

/-- Incremental digest state of the RustCrypto hashers: update appends
bytes to the stream. -/
def digestUpdate (st x : List Nat) : List Nat := st ++ x

/-- finalize applies the primitive compression to the accumulated
stream. -/
def digestFinalize (prim : List Nat → List Nat) (st : List Nat) : List Nat := prim st

/-- BlitzHasher.hash (hasher.rs lines 55-58). -/
def blitzHashFn (prim : List Nat → List Nat) (input : List Nat) : List Nat := prim input

/-- BlitzHasher.hash_with_salt (hasher.rs lines 60-67): combined buffer
holding salt then password. -/
def blitzHashWithSalt (prim : List Nat → List Nat) (password salt : List Nat) : List Nat :=
  prim (salt ++ password)

/-- Md5Hasher.hash (hasher.rs lines 78-83). -/
def md5HashFn (prim : List Nat → List Nat) (input : List Nat) : List Nat :=
  digestFinalize prim (digestUpdate [] input)

/-- Md5Hasher.hash_with_salt (hasher.rs lines 85-91): update salt, then
update password, then finalize. -/
def md5HashWithSalt (prim : List Nat → List Nat) (password salt : List Nat) : List Nat :=
  digestFinalize prim (digestUpdate (digestUpdate [] salt) password)

/-- Sha1Hasher.hash (hasher.rs lines 101-107). -/
def sha1HashFn (prim : List Nat → List Nat) (input : List Nat) : List Nat :=
  digestFinalize prim (digestUpdate [] input)

/-- Sha1Hasher.hash_with_salt (hasher.rs lines 109-115). -/
def sha1HashWithSalt (prim : List Nat → List Nat) (password salt : List Nat) : List Nat :=
  digestFinalize prim (digestUpdate (digestUpdate [] salt) password)

/-- Sha256Hasher.hash (hasher.rs lines 125-131). -/
def sha256HashFn (prim : List Nat → List Nat) (input : List Nat) : List Nat :=
  digestFinalize prim (digestUpdate [] input)

/-- Sha256Hasher.hash_with_salt (hasher.rs lines 133-139). -/
def sha256HashWithSalt (prim : List Nat → List Nat) (password salt : List Nat) : List Nat :=
  digestFinalize prim (digestUpdate (digestUpdate [] salt) password)

/-- Md4Hasher.hash (hasher.rs lines 149-156): md5 placeholder. -/
def md4HashFn (prim : List Nat → List Nat) (input : List Nat) : List Nat :=
  digestFinalize prim (digestUpdate [] input)

/-- Md4Hasher.hash_with_salt (hasher.rs lines 158-164): md5 placeholder. -/
def md4HashWithSalt (prim : List Nat → List Nat) (password salt : List Nat) : List Nat :=
  digestFinalize prim (digestUpdate (digestUpdate [] salt) password)

/-- create_hasher followed by .hash (hasher.rs lines 171-180). -/
def hasherHash (P : HashPrims) : Algorithm → List Nat → List Nat
  | .blitzhash => blitzHashFn P.blitz
  | .md5 => md5HashFn P.md5
  | .sha1 => sha1HashFn P.sha1
  | .sha256 => sha256HashFn P.sha256
  | .md4 => md4HashFn P.md5

/-- create_hasher followed by .hash_with_salt (hasher.rs lines 171-180). -/
def hasherHashWithSalt (P : HashPrims) : Algorithm → List Nat → List Nat → List Nat
  | .blitzhash => blitzHashWithSalt P.blitz
  | .md5 => md5HashWithSalt P.md5
  | .sha1 => sha1HashWithSalt P.sha1
  | .sha256 => sha256HashWithSalt P.sha256
  | .md4 => md4HashWithSalt P.md5

/-! Target model (src/core/target.rs) and loading (src/cli/commands.rs).
Rust Strings are modelled as lists of Chars; the byte view of an ASCII
string maps each Char to its code point. -/

/-- Byte view of a string (ASCII range). -/
def strBytes (s : List Char) : List Nat := s.map Char.toNat

/-- Target (target.rs lines 4-14): hash_hex is stored as the raw string. -/
structure Target where
  id : List Char
  username : List Char
  algorithm : Algorithm
  hash : List Char
  salt : List Char
deriving DecidableEq

/-- One hex digit, accepting both letter cases as the hex crate does. -/
def hexVal (c : Char) : Option Nat :=
  if 48 ≤ c.toNat ∧ c.toNat ≤ 57 then some (c.toNat - 48)
  else if 97 ≤ c.toNat ∧ c.toNat ≤ 102 then some (c.toNat - 87)
  else if 65 ≤ c.toNat ∧ c.toNat ≤ 70 then some (c.toNat - 55)
  else none

/-- hex::decode: fails on odd length or any non-hex character. -/
def hexDecode : List Char → Option (List Nat)
  | [] => some []
  | [_] => none
  | c1 :: c2 :: rest =>
    match hexVal c1, hexVal c2, hexDecode rest with
    | some hi, some lo, some t => some ((16 * hi + lo) :: t)
    | _, _, _ => none

/-- Target.matches (target.rs lines 18-21; renamed because matches is a
reserved word in Lean): the stored hex string is
decoded at every call, with a malformed string decoding to the empty
byte string via unwrap_or_default, then compared byte for byte. -/
def Target.matchesDigest (t : Target) (computed : List Nat) : Bool :=
  computed == (hexDecode t.hash).getD []

/-- Target.salt_bytes (target.rs lines 24-30). -/
def Target.saltBytes (t : Target) : List Nat :=
  if t.salt = [] then [] else strBytes t.salt

/-- The serde enum mapping of hash_algo strings (hasher.rs lines 8-16
with rename_all lowercase): exactly the five lowercase names. -/
def parseAlgo (s : List Char) : Option Algorithm :=
  if s = ['b', 'l', 'i', 't', 'z', 'h', 'a', 's', 'h'] then some .blitzhash
  else if s = ['m', 'd', '5'] then some .md5
  else if s = ['s', 'h', 'a', '1'] then some .sha1
  else if s = ['s', 'h', 'a', '2', '5', '6'] then some .sha256
  else if s = ['m', 'd', '4'] then some .md4
  else none

/-- Deserialising one target record from a parsed manifest entry
(commands.rs lines 75-77 with the serde derive on Target): the only
field that can reject is the algorithm tag; hash_hex is stored without
validation. -/
def loadTarget (id username hashAlgo hashHex salt : List Char) : Option Target :=
  (parseAlgo hashAlgo).map (fun a =>
    { id := id, username := username, algorithm := a, hash := hashHex, salt := salt })

/-! Search engine (src/core/engine.rs). The generator is modelled by the
sequence of batches it yields; the rayon fan-out over a batch is the
order-preserving flat map over candidates (rayon collect preserves
order, and the claims do not depend on candidate order). The hashbrown
bucket map is modelled as an association list in first-insertion order;
the claims do not depend on bucket iteration order. -/

/-- TargetMatch (target.rs lines 33-41), without the f64 time field. -/
structure TargetMatch where
  targetId : List Char
  username : List Char
  password : List Nat
  algorithm : Algorithm
  guessesTried : Nat
deriving DecidableEq

/-- Bucket key: the Display string of the algorithm (engine.rs line 84). -/
def bucketKey (t : Target) : List Char := t.algorithm.toName

/-- Insert one target into the bucket map (engine.rs lines 82-87). -/
def addBucket : List (List Char × List Target) → Target → List (List Char × List Target)
  | [], t => [(bucketKey t, [t])]
  | (k, ts) :: rest, t =>
    if k = bucketKey t then (k, ts ++ [t]) :: rest
    else (k, ts) :: addBucket rest t

/-- The target index by algorithm (engine.rs lines 81-87). -/
def bucketsOf (targets : List Target) : List (List Char × List Target) :=
  targets.foldl addBucket []

/-- The per-candidate, per-target body of the parallel region (engine.rs
lines 129-155): skip found targets, hash with or without salt, record a
match carrying the current guesses_tried snapshot. -/
def probeTarget (P : HashPrims) (hasherAlgo : Algorithm) (found : List (List Char))
    (guessesSnap : Nat) (cand : List Nat) (t : Target) : Option TargetMatch :=
  if t.id ∈ found then none
  else
    let h := if t.salt = [] then hasherHash P hasherAlgo cand
             else hasherHashWithSalt P hasherAlgo cand t.saltBytes
    if t.matchesDigest h then
      some { targetId := t.id, username := t.username, password := cand,
             algorithm := t.algorithm, guessesTried := guessesSnap }
    else none

/-- The batch_matches of one bucket (engine.rs lines 124-161). -/
def bucketMatches (P : HashPrims) (hasherAlgo : Algorithm) (found : List (List Char))
    (guessesSnap : Nat) (batch : List (List Nat)) (ts : List Target) : List TargetMatch :=
  batch.flatMap (fun cand => ts.filterMap (probeTarget P hasherAlgo found guessesSnap cand))

/-- Recording one detected match (engine.rs lines 163-168): the found
set deduplicates, and the match list grows only on fresh insertion. -/
def recordOne : List (List Char) × List TargetMatch → TargetMatch →
    List (List Char) × List TargetMatch
  | (found, ms), m =>
    if m.targetId ∈ found then (found, ms)
    else (found ++ [m.targetId], ms ++ [m])

/-- Processing one bucket within a batch (engine.rs lines 110-169):
empty buckets and buckets whose targets are all found are skipped. -/
def processBucket (P : HashPrims) (st : List (List Char) × List TargetMatch)
    (guessesSnap : Nat) (batch : List (List Nat)) (bucket : List Char × List Target) :
    List (List Char) × List TargetMatch :=
  match bucket.2 with
  | [] => st
  | t0 :: _ =>
    if bucket.2.all (fun t => decide (t.id ∈ st.1)) then st
    else
      (bucketMatches P t0.algorithm st.1 guessesSnap batch bucket.2).foldl recordOne st

/-- Engine state threaded through the main loop: the found set, the
match list, and the u64 statistics counters. -/
structure EngState where
  found : List (List Char)
  matchList : List TargetMatch
  guesses : Nat
  hashes : Nat
  targetsFound : Nat

/-- One iteration of the main cracking loop (engine.rs lines 95-185):
process every bucket, then update the statistics, with guesses_tried
increased by the actual batch size and hashes_computed by the batch size
times the total number of buckets (engine.rs lines 171-178). -/
def engineStep (P : HashPrims) (buckets : List (List Char × List Target))
    (st : EngState) (batch : List (List Nat)) : EngState :=
  let fm := buckets.foldl (fun acc b => processBucket P acc st.guesses batch b)
    (st.found, st.matchList)
  { found := fm.1, matchList := fm.2,
    guesses := (st.guesses + batch.length) % U64MOD,
    hashes := (st.hashes + batch.length * buckets.length) % U64MOD,
    targetsFound := fm.1.length }

/-- The number of buckets holding at least one unsolved target; recorded
in the run trace so that statements about the skip optimisation can be
made. -/
def activeBuckets (found : List (List Char)) (buckets : List (List Char × List Target)) : Nat :=
  (buckets.filter (fun b => ! b.2.all (fun t => decide (t.id ∈ found)))).length

/-- The main loop of Engine.run (engine.rs lines 95-185) over the batch
sequence the generator yields, stopping when every target is found or
the batches run out. Besides the final state it returns the trace of
consumed batches as pairs of batch size and active bucket count. -/
def engineGo (P : HashPrims) (targets : List Target)
    (buckets : List (List Char × List Target)) :
    EngState → List (List (List Nat)) → EngState × List (Nat × Nat)
  | st, [] => (st, [])
  | st, batch :: rest =>
    if targets.length ≤ st.found.length then (st, [])
    else
      let a := activeBuckets st.found buckets
      let st' := engineStep P buckets st batch
      let r := engineGo P targets buckets st' rest
      (r.1, (batch.length, a) :: r.2)

/-- The state at engine construction (engine.rs lines 19-29, 54-70). -/
def engineInit : EngState :=
  { found := [], matchList := [], guesses := 0, hashes := 0, targetsFound := 0 }

/-- Engine.run: build the bucket index, then drive the main loop. -/
def engineRun (P : HashPrims) (targets : List Target)
    (batches : List (List (List Nat))) : EngState × List (Nat × Nat) :=
  engineGo P targets (bucketsOf targets) engineInit batches

/-! Engine invariants: the found set stays duplicate-free, holds only
ids of input targets, and is exactly the image of the match list. -/

/-- The run invariant tying found set and match list together. -/
def EngInv (targets : List Target) (found : List (List Char)) (ms : List TargetMatch) : Prop :=
  found.Nodup ∧ (∀ x ∈ found, x ∈ targets.map Target.id) ∧
    ms.map TargetMatch.targetId = found

/-! Bounds safety of the brute-force generator (claim about
increment_current keeping indices below the charset size). -/

/-- States of a brute-force generator reachable from construction
through next_batch calls. -/
inductive BFReach (cs : List Nat) (minL maxL : Nat) : BFGen → Prop where
  | init : BFReach cs minL maxL (bfInitSt cs minL maxL)
  | step (s : BFGen) (n : Nat) :
      BFReach cs minL maxL s → BFReach cs minL maxL (bfNextBatch s n).2

/-- The candidate construction with the charset access made explicit: a
none result would mean the source expression charset of current i reads
out of bounds. -/
def bfCandChecked (s : BFGen) : Option (List Nat) :=
  s.current.mapM (fun i => s.charset[i]?)

/-! Concrete instances used by witnesses and counterexamples. -/

/-- A concrete primitive family: every primitive is the identity on byte
strings. The engine statistics and bookkeeping claims hold for every
primitive family, so any executable instance serves for evaluation. -/
def idPrims : HashPrims :=
  { blitz := fun x => x, md5 := fun x => x, sha1 := fun x => x, sha256 := fun x => x }

/-- An md5 target whose stored digest (hex 61) is the byte string of the
candidate a under the identity primitive. -/
def targetA : Target :=
  { id := ['t', '1'], username := ['u', '1'], algorithm := .md5,
    hash := ['6', '1'], salt := [] }

/-- A sha1 target whose stored digest (hex ff) no one-byte candidate can
reach under the identity primitive. -/
def targetB : Target :=
  { id := ['t', '2'], username := ['u', '2'], algorithm := .sha1,
    hash := ['f', 'f'], salt := [] }

theorem digitsLt_length : ∀ {ds bs : List Nat}, digitsLt ds bs = true → ds.length = bs.length := by
  intro ds
  induction ds with
  | nil => intro bs h; cases bs with
    | nil => rfl
    | cons b bs => simp [digitsLt] at h
  | cons d ds ih => intro bs h; cases bs with
    | nil => simp [digitsLt] at h
    | cons b bs =>
      simp only [digitsLt, Bool.and_eq_true, decide_eq_true_eq] at h
      simp [ih h.2]

theorem digitsLt_bases_pos : ∀ {ds bs : List Nat}, digitsLt ds bs = true → ∀ b ∈ bs, 0 < b := by
  intro ds
  induction ds with
  | nil => intro bs h b hb; cases bs with
    | nil => cases hb
    | cons x xs => simp [digitsLt] at h
  | cons d ds ih => intro bs h b hb; cases bs with
    | nil => simp [digitsLt] at h
    | cons x xs =>
      simp only [digitsLt, Bool.and_eq_true, decide_eq_true_eq] at h
      rcases List.mem_cons.mp hb with rfl | hb
      · exact Nat.lt_of_le_of_lt (Nat.zero_le d) h.1
      · exact ih h.2 b hb

theorem rankOdo_lt_prod : ∀ {ds bs : List Nat}, digitsLt ds bs = true →
    rankOdo ds bs < bs.prod := by
  intro ds
  induction ds with
  | nil => intro bs h; cases bs with
    | nil => simp [rankOdo]
    | cons b bs => simp [digitsLt] at h
  | cons d ds ih => intro bs h; cases bs with
    | nil => simp [digitsLt] at h
    | cons b bs =>
      simp only [digitsLt, Bool.and_eq_true, decide_eq_true_eq] at h
      have hr := ih h.2
      have h1 : d * bs.prod + rankOdo ds bs < (d + 1) * bs.prod := by
        rw [Nat.succ_mul]; exact Nat.add_lt_add_left hr _
      have h2 : (d + 1) * bs.prod ≤ b * bs.prod :=
        Nat.mul_le_mul_right _ h.1
      calc rankOdo (d :: ds) (b :: bs) = d * bs.prod + rankOdo ds bs := rfl
        _ < (d + 1) * bs.prod := h1
        _ ≤ b * bs.prod := h2
        _ = (b :: bs).prod := (List.prod_cons).symm

theorem digitsLt_replicate_zero : ∀ {ds bs : List Nat}, digitsLt ds bs = true →
    digitsLt (List.replicate ds.length 0) bs = true := by
  intro ds
  induction ds with
  | nil => intro bs h; cases bs with
    | nil => rfl
    | cons b bs => simp [digitsLt] at h
  | cons d ds ih => intro bs h; cases bs with
    | nil => simp [digitsLt] at h
    | cons b bs =>
      simp only [digitsLt, Bool.and_eq_true, decide_eq_true_eq] at h
      simp only [List.length_cons, List.replicate_succ, digitsLt, Bool.and_eq_true,
        decide_eq_true_eq]
      exact ⟨Nat.lt_of_le_of_lt (Nat.zero_le d) h.1, ih h.2⟩

theorem rankOdo_replicate_zero : ∀ (n : Nat) (bs : List Nat),
    rankOdo (List.replicate n 0) bs = 0 := by
  intro n
  induction n with
  | zero => intro bs; cases bs <;> rfl
  | succ n ih =>
    intro bs
    cases bs with
    | nil => rfl
    | cons b bs => simp [List.replicate_succ, rankOdo, ih]

theorem incOdo_spec : ∀ {ds bs : List Nat}, digitsLt ds bs = true →
    (incOdo ds bs = none → rankOdo ds bs + 1 = bs.prod) ∧
    (∀ ds', incOdo ds bs = some ds' →
      digitsLt ds' bs = true ∧ rankOdo ds' bs = rankOdo ds bs + 1) := by
  intro ds
  induction ds with
  | nil =>
    intro bs h
    cases bs with
    | nil => exact ⟨fun _ => rfl, fun ds' h' => by simp [incOdo] at h'⟩
    | cons b bs => simp [digitsLt] at h
  | cons d ds ih =>
    intro bs h
    cases bs with
    | nil => simp [digitsLt] at h
    | cons b bs =>
      simp only [digitsLt, Bool.and_eq_true, decide_eq_true_eq] at h
      obtain ⟨hdb, hrest⟩ := h
      have ihs := ih hrest
      cases hinc : incOdo ds bs with
      | some ds'' =>
        have hih := ihs.2 ds'' hinc
        have hstep : incOdo (d :: ds) (b :: bs) = some (d :: ds'') := by
          simp [incOdo, hinc]
        constructor
        · intro hnone; rw [hstep] at hnone; simp at hnone
        · intro ds' hsome
          rw [hstep] at hsome
          have heq : d :: ds'' = ds' := by injection hsome
          subst heq
          refine ⟨?_, ?_⟩
          · simp only [digitsLt, Bool.and_eq_true, decide_eq_true_eq]
            exact ⟨hdb, hih.1⟩
          · calc rankOdo (d :: ds'') (b :: bs)
                = d * bs.prod + rankOdo ds'' bs := rfl
              _ = d * bs.prod + (rankOdo ds bs + 1) := by rw [hih.2]
              _ = rankOdo (d :: ds) (b :: bs) + 1 := by simp [rankOdo]; ring
      | none =>
        have hr1 : rankOdo ds bs + 1 = bs.prod := ihs.1 hinc
        by_cases hlt : d + 1 < b
        · have hstep : incOdo (d :: ds) (b :: bs) =
              some ((d + 1) :: List.replicate ds.length 0) := by
            simp [incOdo, hinc, hlt]
          constructor
          · intro hnone; rw [hstep] at hnone; simp at hnone
          · intro ds' hsome
            rw [hstep] at hsome
            have heq : (d + 1) :: List.replicate ds.length 0 = ds' := by injection hsome
            subst heq
            refine ⟨?_, ?_⟩
            · simp only [digitsLt, Bool.and_eq_true, decide_eq_true_eq]
              exact ⟨hlt, digitsLt_replicate_zero hrest⟩
            · calc rankOdo ((d + 1) :: List.replicate ds.length 0) (b :: bs)
                  = (d + 1) * bs.prod + rankOdo (List.replicate ds.length 0) bs := rfl
                _ = (d + 1) * bs.prod := by rw [rankOdo_replicate_zero]; ring
                _ = d * bs.prod + bs.prod := Nat.succ_mul d bs.prod
                _ = d * bs.prod + (rankOdo ds bs + 1) := by rw [hr1]
                _ = rankOdo (d :: ds) (b :: bs) + 1 := by simp [rankOdo]; ring
        · have hd1 : d + 1 = b := by omega
          have hstep : incOdo (d :: ds) (b :: bs) = none := by
            simp [incOdo, hinc, hlt]
          constructor
          · intro _
            calc rankOdo (d :: ds) (b :: bs) + 1
                = d * bs.prod + (rankOdo ds bs + 1) := by simp [rankOdo]; ring
              _ = d * bs.prod + bs.prod := by rw [hr1]
              _ = (d + 1) * bs.prod := (Nat.succ_mul d bs.prod).symm
              _ = b * bs.prod := by rw [hd1]
              _ = (b :: bs).prod := (List.prod_cons).symm
          · intro ds' hsome; rw [hstep] at hsome; simp at hsome

theorem flatMap_consMap_length (cs : List Nat) (l : List (List Nat)) :
    (cs.flatMap (fun c => l.map (fun t => c :: t))).length = cs.length * l.length := by
  induction cs with
  | nil => simp
  | cons c cs ih => simp [List.flatMap_cons, ih, Nat.succ_mul, Nat.add_comm]

theorem enumOdo_length : ∀ (p : List (List Nat)),
    (enumOdo p).length = (p.map List.length).prod := by
  intro p
  induction p with
  | nil => rfl
  | cons cs p ih =>
    simp only [enumOdo]
    rw [flatMap_consMap_length, ih]
    simp

theorem flatMap_consMap_getElem (cs : List Nat) (l : List (List Nat)) :
    ∀ (d r : Nat), d < cs.length → r < l.length →
    (cs.flatMap (fun c => l.map (fun t => c :: t)))[d * l.length + r]? =
      some (cs.getD d 0 :: l.getD r []) := by
  induction cs with
  | nil => intro d r hd _; simp at hd
  | cons c cs ih =>
    intro d r hd hr
    cases d with
    | zero =>
      simp only [Nat.zero_mul, Nat.zero_add, List.flatMap_cons]
      rw [List.getElem?_append_left (by simpa using hr)]
      simp [List.getElem?_map, List.getElem?_eq_getElem hr, List.getD_eq_getElem?_getD,
        List.getElem?_eq_getElem hr]
    | succ d =>
      simp only [List.flatMap_cons]
      have hlen : (List.map (fun t => c :: t) l).length = l.length := by simp
      have hidx : (d + 1) * l.length + r = (List.map (fun t => c :: t) l).length + (d * l.length + r) := by
        rw [hlen, Nat.succ_mul]; ring
      rw [hidx, List.getElem?_append_right (Nat.le_add_right _ _), Nat.add_sub_cancel_left]
      exact ih d r (by simpa using hd) hr

theorem enumOdo_getElem : ∀ (p : List (List Nat)) (ds : List Nat),
    digitsLt ds (p.map List.length) = true →
    (enumOdo p)[rankOdo ds (p.map List.length)]? = some (zipSelect p ds) := by
  intro p
  induction p with
  | nil =>
    intro ds h
    cases ds with
    | nil => rfl
    | cons d ds => simp [digitsLt] at h
  | cons cs p ih =>
    intro ds h
    cases ds with
    | nil => simp [digitsLt] at h
    | cons d ds =>
      simp only [List.map_cons, digitsLt, Bool.and_eq_true, decide_eq_true_eq] at h
      obtain ⟨hd, hrest⟩ := h
      have hr := rankOdo_lt_prod hrest
      have hrlen : rankOdo ds (p.map List.length) < (enumOdo p).length := by
        rw [enumOdo_length]; exact hr
      have key := flatMap_consMap_getElem cs (enumOdo p) d
        (rankOdo ds (p.map List.length)) hd hrlen
      have hprod : (p.map List.length).prod = (enumOdo p).length := (enumOdo_length p).symm
      have hrank : rankOdo (d :: ds) ((cs :: p).map List.length) =
          d * (enumOdo p).length + rankOdo ds (p.map List.length) := by
        simp [rankOdo, hprod]
      rw [hrank]
      simp only [enumOdo]
      rw [key]
      have hval : (enumOdo p).getD (rankOdo ds (p.map List.length)) [] = zipSelect p ds := by
        have := ih ds hrest
        rw [List.getD_eq_getElem?_getD, this]; rfl
      rw [hval]
      rfl

theorem maskAux_exhausted (s : MaskGen) (n : Nat) (h : s.exhausted = true) :
    maskAux s n = ([], s) := by
  cases n with
  | zero => rfl
  | succ n => simp [maskAux, h]

theorem maskAux_spec : ∀ (n : Nat) (s : MaskGen), MaskValid s → s.exhausted = false →
    (maskAux s n).1 = ((enumOdo s.pattern).drop (maskRank s)).take n ∧
    (maskAux s n).2.pattern = s.pattern ∧
    (if maskRank s + n < (s.pattern.map List.length).prod
     then (maskAux s n).2.exhausted = false ∧ MaskValid (maskAux s n).2 ∧
          maskRank (maskAux s n).2 = maskRank s + n
     else (maskAux s n).2.exhausted = true) := by
  intro n
  induction n with
  | zero =>
    intro s hv he
    refine ⟨rfl, rfl, ?_⟩
    have hrlt : maskRank s < (s.pattern.map List.length).prod := rankOdo_lt_prod hv
    rw [if_pos (by omega)]
    exact ⟨he, hv, by simp [maskAux]⟩
  | succ n ih =>
    intro s hv he
    have hrlt : maskRank s < (s.pattern.map List.length).prod := rankOdo_lt_prod hv
    have hlen : maskRank s < (enumOdo s.pattern).length := by
      rw [enumOdo_length]; exact hrlt
    have hget : (enumOdo s.pattern)[maskRank s] = maskCand s := by
      have h1 : (enumOdo s.pattern)[maskRank s]? = some (maskCand s) :=
        enumOdo_getElem s.pattern s.current hv
      rw [List.getElem?_eq_getElem hlen] at h1
      exact Option.some.inj h1
    have hdrop : (enumOdo s.pattern).drop (maskRank s) =
        maskCand s :: (enumOdo s.pattern).drop (maskRank s + 1) := by
      rw [List.drop_eq_getElem_cons hlen, hget]
    have hunfold : maskAux s (n + 1) =
        (maskCand s :: (maskAux (maskIncrement s) n).1, (maskAux (maskIncrement s) n).2) := by
      simp [maskAux, he]
    cases hinc : incOdo s.current (s.pattern.map List.length) with
    | some ds' =>
      have hspec := (incOdo_spec hv).2 ds' hinc
      have hs' : maskIncrement s = { s with current := ds' } := by
        simp [maskIncrement, hinc]
      have hv' : MaskValid { s with current := ds' } := hspec.1
      have hrank' : maskRank { s with current := ds' } = maskRank s + 1 := hspec.2
      have ihr := ih { s with current := ds' } hv' he
      dsimp only at ihr
      rw [hrank'] at ihr
      rw [show maskRank s + 1 + n = maskRank s + (n + 1) from by omega] at ihr
      rw [hunfold, hs']
      refine ⟨?_, ihr.2.1, ihr.2.2⟩
      dsimp only
      rw [hdrop, List.take_succ_cons, ihr.1]
    | none =>
      have hr1 : maskRank s + 1 = (s.pattern.map List.length).prod := (incOdo_spec hv).1 hinc
      have hs' : maskIncrement s =
          { s with current := List.replicate s.current.length 0, exhausted := true } := by
        simp [maskIncrement, hinc]
      rw [hunfold, hs', maskAux_exhausted _ n rfl]
      have hdrop1 : (enumOdo s.pattern).drop (maskRank s + 1) = [] := by
        apply List.drop_eq_nil_of_le
        rw [enumOdo_length]; omega
      refine ⟨?_, rfl, ?_⟩
      · rw [hdrop, hdrop1]; simp
      · rw [if_neg (by omega)]

theorem maskDrain_exhausted (s : MaskGen) (size fuel : Nat) (h : s.exhausted = true) :
    drainG maskNextBatch s size fuel = [] := by
  cases fuel with
  | zero => rfl
  | succ fuel => simp [drainG, maskNextBatch, h]

theorem maskDrain_spec : ∀ (fuel : Nat) (s : MaskGen), MaskValid s → s.exhausted = false →
    ∀ size, 1 ≤ size → (s.pattern.map List.length).prod - maskRank s ≤ fuel →
    drainG maskNextBatch s size fuel = (enumOdo s.pattern).drop (maskRank s) := by
  intro fuel
  induction fuel with
  | zero =>
    intro s hv he size hs hfuel
    have hrlt : maskRank s < (s.pattern.map List.length).prod := rankOdo_lt_prod hv
    omega
  | succ fuel ih =>
    intro s hv he size hs hfuel
    have hrlt : maskRank s < (s.pattern.map List.length).prod := rankOdo_lt_prod hv
    have haux := maskAux_spec size s hv he
    have hlen : ((enumOdo s.pattern).drop (maskRank s)).length =
        (s.pattern.map List.length).prod - maskRank s := by
      rw [List.length_drop, enumOdo_length]
    have hne : (maskAux s size).1.isEmpty = false := by
      rw [haux.1, List.isEmpty_eq_false_iff_exists_mem]
      have : 0 < (((enumOdo s.pattern).drop (maskRank s)).take size).length := by
        rw [List.length_take]; omega
      exact ⟨_, List.getElem_mem this⟩
    have hnext : maskNextBatch s size =
        (some (maskAux s size).1, (maskAux s size).2) := by
      simp [maskNextBatch, he, hne]
    have hstep : drainG maskNextBatch s size (fuel + 1) =
        (maskAux s size).1 ++ drainG maskNextBatch (maskAux s size).2 size fuel := by
      rw [drainG, hnext]
    rw [hstep]
    by_cases hcond : maskRank s + size < (s.pattern.map List.length).prod
    · rw [if_pos hcond] at haux
      obtain ⟨hb, hp, he2, hv2, hr2⟩ := haux
      have ihr := ih (maskAux s size).2 hv2 he2 size hs (by rw [hp, hr2]; omega)
      rw [ihr, hb, hp, hr2]
      rw [← List.drop_drop]
      exact List.take_append_drop size _
    · rw [if_neg hcond] at haux
      rw [maskDrain_exhausted _ _ _ haux.2.2, haux.1]
      rw [List.take_of_length_le (by omega), List.append_nil]

theorem digitsLt_init : ∀ (p : List (List Nat)), (∀ cs ∈ p, cs ≠ []) →
    digitsLt (List.replicate p.length 0) (p.map List.length) = true := by
  intro p
  induction p with
  | nil => intro _; rfl
  | cons cs p ih =>
    intro h
    simp only [List.length_cons, List.replicate_succ, List.map_cons, digitsLt,
      Bool.and_eq_true, decide_eq_true_eq]
    refine ⟨?_, ih (fun c hc => h c (List.mem_cons_of_mem _ hc))⟩
    have : cs ≠ [] := h cs (List.mem_cons_self _ _)
    exact List.length_pos.mpr this

theorem maskRank_init (p : List (List Nat)) : maskRank (maskInit p) = 0 :=
  rankOdo_replicate_zero _ _

theorem mask_drain_full (p : List (List Nat)) (hne : ∀ cs ∈ p, cs ≠ [])
    (size fuel : Nat) (hs : 1 ≤ size) (hfuel : (p.map List.length).prod ≤ fuel) :
    drainG maskNextBatch (maskInit p) size fuel = enumOdo p := by
  have hv : MaskValid (maskInit p) := digitsLt_init p hne
  have h := maskDrain_spec fuel (maskInit p) hv rfl size hs
    (by dsimp only [maskInit, maskRank]; rw [rankOdo_replicate_zero]; omega)
  rw [h, maskRank_init]
  dsimp only [maskInit]
  rw [List.drop_zero]

theorem flatMap_length {α β : Type} (l : List α) (f : α → List β) :
    (l.flatMap f).length = (l.map (fun a => (f a).length)).sum := by
  induction l with
  | nil => rfl
  | cons x l ih => simp [List.flatMap_cons, ih]

theorem enumLen_length (cs : List Nat) (k : Nat) :
    (enumLen cs k).length = cs.length ^ k := by
  rw [enumLen, enumOdo_length, List.map_replicate, List.prod_replicate]

theorem enumBF_length (cs : List Nat) (minL maxL : Nat) :
    (enumBF cs minL maxL).length = bfTrueSize cs minL maxL := by
  rw [enumBF, bfTrueSize, flatMap_length]
  congr 1
  apply List.map_congr_left
  intro k _
  exact enumLen_length cs k

theorem digitsLt_zeros (n B : Nat) (h : 0 < B) :
    digitsLt (List.replicate n 0) (List.replicate n B) = true := by
  induction n with
  | zero => rfl
  | succ n ih =>
    simp only [List.replicate_succ, digitsLt, Bool.and_eq_true, decide_eq_true_eq]
    exact ⟨h, ih⟩

theorem zipSelect_replicate (cs : List Nat) :
    ∀ (ds : List Nat), zipSelect (List.replicate ds.length cs) ds =
      ds.map (fun d => cs.getD d 0) := by
  intro ds
  induction ds with
  | nil => rfl
  | cons d ds ih =>
    simp only [List.length_cons, List.replicate_succ, zipSelect, List.zipWith_cons_cons,
      List.map_cons]
    exact congrArg _ ih

theorem bfSuffix_def (s : BFGen) (h : ¬ s.maxLength < s.currentLength) :
    bfSuffix s = (enumLen s.charset s.currentLength).drop (bfRank s) ++
      (List.range' (s.currentLength + 1) (s.maxLength - s.currentLength)).flatMap
        (enumLen s.charset) := by
  simp only [bfSuffix]
  rw [if_neg h]

theorem bfSuffix_past (s : BFGen) (h : s.maxLength < s.currentLength) :
    bfSuffix s = [] := by
  simp only [bfSuffix]
  rw [if_pos h]

theorem enumLen_head (cs : List Nat) (L : Nat) (ds : List Nat)
    (hd : digitsLt ds (List.replicate L cs.length) = true)
    (hlen : ds.length = L) :
    (enumLen cs L).drop (rankOdo ds (List.replicate L cs.length)) =
      ds.map (fun d => cs.getD d 0) ::
        (enumLen cs L).drop (rankOdo ds (List.replicate L cs.length) + 1) := by
  have hd' : digitsLt ds ((List.replicate L cs).map List.length) = true := by
    rw [List.map_replicate]; exact hd
  have hrlt : rankOdo ds (List.replicate L cs.length) < cs.length ^ L := by
    have h1 := rankOdo_lt_prod hd
    rwa [List.prod_replicate] at h1
  have hrlen : rankOdo ds (List.replicate L cs.length) < (enumLen cs L).length := by
    rw [enumLen_length]; exact hrlt
  have h2 := enumOdo_getElem (List.replicate L cs) ds hd'
  rw [List.map_replicate] at h2
  have h4 : zipSelect (List.replicate L cs) ds = ds.map (fun d => cs.getD d 0) := by
    rw [← hlen, zipSelect_replicate]
  rw [h4] at h2
  have h5 : (enumLen cs L)[rankOdo ds (List.replicate L cs.length)]? =
      some (ds.map (fun d => cs.getD d 0)) := h2
  rw [List.getElem?_eq_getElem hrlen] at h5
  rw [List.drop_eq_getElem_cons hrlen, Option.some.inj h5]

theorem bfAdvance_spec (s : BFGen) (h0 : 0 < s.charset.length)
    (hle : s.currentLength ≤ s.maxLength)
    (hd : digitsLt s.current (List.replicate s.current.length s.charset.length) = true)
    (hlen : s.current.length = s.currentLength) :
    (bfAdvance s).charset = s.charset ∧ (bfAdvance s).minLength = s.minLength ∧
    (bfAdvance s).maxLength = s.maxLength ∧ (bfAdvance s).exhausted = s.exhausted ∧
    BFInv (bfAdvance s) ∧ bfSuffix (bfAdvance s) = (bfSuffix s).drop 1 := by
  have hd2 : digitsLt s.current (List.replicate s.currentLength s.charset.length) = true := by
    rw [← hlen]; exact hd
  have hbr : bfRank s = rankOdo s.current (List.replicate s.currentLength s.charset.length) := by
    unfold bfRank; rw [hlen]
  have hsufdef := bfSuffix_def s (by omega)
  have hhead := enumLen_head s.charset s.currentLength s.current hd2 hlen
  rw [← hbr] at hhead
  have hcand : bfCand s = s.current.map (fun d => s.charset.getD d 0) := rfl
  rw [← hcand] at hhead
  cases hinc : incOdo s.current (List.replicate s.current.length s.charset.length) with
  | some ds' =>
    have hspec := (incOdo_spec hd).2 ds' hinc
    have hlen' : ds'.length = s.current.length := by
      have h6 := digitsLt_length hspec.1
      simpa using h6
    have hs' : bfAdvance s = { s with current := ds' } := by
      simp [bfAdvance, hinc]
    rw [hs']
    refine ⟨rfl, rfl, rfl, rfl, ?_, ?_⟩
    · intro _
      refine ⟨?_, by rw [hlen', hlen]⟩
      have h5 := hspec.1
      rwa [← hlen'] at h5
    · have hrank' : bfRank { s with current := ds' } = bfRank s + 1 := by
        show rankOdo ds' (List.replicate ds'.length s.charset.length) = bfRank s + 1
        rw [hlen']
        exact hspec.2
      have hsuf' := bfSuffix_def { s with current := ds' } (by dsimp only; omega)
      dsimp only at hsuf'
      rw [hrank'] at hsuf'
      rw [hsuf', hsufdef, hhead]
      simp
  | none =>
    have hr1 : bfRank s + 1 = s.charset.length ^ s.currentLength := by
      have h1 := (incOdo_spec hd).1 hinc
      rw [List.prod_replicate, hlen] at h1
      rw [hbr]
      exact h1
    have hdrop1 : (enumLen s.charset s.currentLength).drop (bfRank s + 1) = [] := by
      apply List.drop_eq_nil_of_le
      rw [enumLen_length]
      omega
    have hcons : bfSuffix s = bfCand s ::
        (List.range' (s.currentLength + 1) (s.maxLength - s.currentLength)).flatMap
          (enumLen s.charset) := by
      rw [hsufdef, hhead, hdrop1]
      rfl
    by_cases hle2 : s.currentLength + 1 ≤ s.maxLength
    · have hs' : bfAdvance s =
          { s with currentLength := s.currentLength + 1,
                   current := List.replicate (s.currentLength + 1) 0 } := by
        simp [bfAdvance, hinc, hle2]
      rw [hs']
      refine ⟨rfl, rfl, rfl, rfl, ?_, ?_⟩
      · intro _
        refine ⟨?_, by simp⟩
        dsimp only
        rw [List.length_replicate]
        exact digitsLt_zeros _ _ h0
      · have h6 := bfSuffix_def
          { s with currentLength := s.currentLength + 1,
                   current := List.replicate (s.currentLength + 1) 0 }
          (by dsimp only; omega)
        dsimp only at h6
        have hrz : bfRank { s with currentLength := s.currentLength + 1,
                                   current := List.replicate (s.currentLength + 1) 0 } = 0 := by
          show rankOdo (List.replicate (s.currentLength + 1) 0) _ = 0
          exact rankOdo_replicate_zero _ _
        rw [hrz, List.drop_zero] at h6
        have hrange : List.range' (s.currentLength + 1) (s.maxLength - s.currentLength) =
            (s.currentLength + 1) ::
              List.range' (s.currentLength + 1 + 1) (s.maxLength - (s.currentLength + 1)) := by
          have hm : s.maxLength - s.currentLength = (s.maxLength - (s.currentLength + 1)) + 1 := by
            omega
          rw [hm, List.range'_succ]
        rw [h6, hcons, List.drop_succ_cons, List.drop_zero, hrange, List.flatMap_cons]
    · have hs' : bfAdvance s =
          { s with currentLength := s.currentLength + 1,
                   current := List.replicate s.current.length 0 } := by
        simp [bfAdvance, hinc, hle2]
      rw [hs']
      refine ⟨rfl, rfl, rfl, rfl, ?_, ?_⟩
      · intro h
        exact absurd (by dsimp only at h; omega : s.currentLength + 1 ≤ s.maxLength) hle2
      · have h6 := bfSuffix_past
          { s with currentLength := s.currentLength + 1,
                   current := List.replicate s.current.length 0 }
          (by dsimp only; omega)
        have hm0 : s.maxLength - s.currentLength = 0 := by omega
        rw [h6, hcons, List.drop_succ_cons, List.drop_zero, hm0]
        simp

theorem bfSuffix_cons (s : BFGen) (hle : s.currentLength ≤ s.maxLength)
    (hd : digitsLt s.current (List.replicate s.current.length s.charset.length) = true)
    (hlen : s.current.length = s.currentLength) :
    bfSuffix s = bfCand s :: (bfSuffix s).drop 1 := by
  have hd2 : digitsLt s.current (List.replicate s.currentLength s.charset.length) = true := by
    rw [← hlen]; exact hd
  have hbr : bfRank s = rankOdo s.current (List.replicate s.currentLength s.charset.length) := by
    unfold bfRank; rw [hlen]
  have hsufdef := bfSuffix_def s (by omega)
  have hhead := enumLen_head s.charset s.currentLength s.current hd2 hlen
  rw [← hbr] at hhead
  have hcand : bfCand s = s.current.map (fun d => s.charset.getD d 0) := rfl
  rw [← hcand] at hhead
  rw [hsufdef, hhead]
  simp

theorem bfAux_spec : ∀ (n : Nat) (s : BFGen), 0 < s.charset.length → BFInv s →
    (bfAux s n).1 = (bfSuffix s).take n ∧
    (bfAux s n).2.charset = s.charset ∧
    (bfAux s n).2.minLength = s.minLength ∧
    (bfAux s n).2.maxLength = s.maxLength ∧
    BFInv (bfAux s n).2 ∧
    (if n ≤ (bfSuffix s).length
     then (bfAux s n).2.exhausted = s.exhausted ∧
          bfSuffix (bfAux s n).2 = (bfSuffix s).drop n
     else (bfAux s n).2.exhausted = true) := by
  intro n
  induction n with
  | zero =>
    intro s h0 hinv
    refine ⟨rfl, rfl, rfl, rfl, hinv, ?_⟩
    rw [if_pos (Nat.zero_le _)]
    exact ⟨rfl, by simp [bfAux]⟩
  | succ n ih =>
    intro s h0 hinv
    by_cases hpast : s.maxLength < s.currentLength
    · have hunfold : bfAux s (n + 1) = ([], { s with exhausted := true }) := by
        simp [bfAux, hpast]
      have hsufnil : bfSuffix s = [] := bfSuffix_past s hpast
      rw [hunfold, hsufnil]
      refine ⟨by simp, rfl, rfl, rfl, ?_, ?_⟩
      · intro h; exact hinv h
      · rw [if_neg (by simp)]
    · have hle : s.currentLength ≤ s.maxLength := by omega
      obtain ⟨hd, hlen⟩ := hinv hle
      have hconsS := bfSuffix_cons s hle hd hlen
      obtain ⟨hc1, hc2, hc3, hc4, hinv1, hsuf1⟩ := bfAdvance_spec s h0 hle hd hlen
      have ih1 := ih (bfAdvance s) (by rw [hc1]; exact h0) hinv1
      have hunfold : bfAux s (n + 1) =
          (bfCand s :: (bfAux (bfAdvance s) n).1, (bfAux (bfAdvance s) n).2) := by
        simp [bfAux, hpast]
      rw [hunfold]
      dsimp only
      have hlenS : (bfSuffix s).length = ((bfSuffix s).drop 1).length + 1 := by
        rw [hconsS]; simp
      refine ⟨?_, by rw [ih1.2.1, hc1], by rw [ih1.2.2.1, hc2],
        by rw [ih1.2.2.2.1, hc3], ih1.2.2.2.2.1, ?_⟩
      · rw [ih1.1, hsuf1, hconsS]
        simp
      · by_cases hcnd : n + 1 ≤ (bfSuffix s).length
        · rw [if_pos hcnd]
          have hcnd' : n ≤ (bfSuffix (bfAdvance s)).length := by rw [hsuf1]; omega
          have hif := ih1.2.2.2.2.2
          rw [if_pos hcnd'] at hif
          obtain ⟨hex, hsfx⟩ := hif
          constructor
          · rw [hex]; exact hc4
          · rw [hsfx, hsuf1, List.drop_drop, Nat.add_comm 1 n]
        · rw [if_neg hcnd]
          have hcnd' : ¬ n ≤ (bfSuffix (bfAdvance s)).length := by rw [hsuf1]; omega
          have hif := ih1.2.2.2.2.2
          rw [if_neg hcnd'] at hif
          exact hif

theorem bfDrain_exhausted (s : BFGen) (size fuel : Nat) (h : s.exhausted = true) :
    drainG bfNextBatch s size fuel = [] := by
  cases fuel with
  | zero => rfl
  | succ fuel => simp [drainG, bfNextBatch, h]

theorem bfNextBatch_none_of_nil (s : BFGen) (hinv : BFInv s)
    (hnil : bfSuffix s = []) (size : Nat) : (bfNextBatch s size).1 = none := by
  by_cases hex : s.exhausted = true
  · simp [bfNextBatch, hex]
  · have hex' : s.exhausted = false := by revert hex; cases s.exhausted <;> simp
    have hpast : s.maxLength < s.currentLength := by
      by_contra hpast
      have hle : s.currentLength ≤ s.maxLength := by omega
      obtain ⟨hd, hlen⟩ := hinv hle
      have hcons := bfSuffix_cons s hle hd hlen
      rw [hnil] at hcons
      simp at hcons
    cases size with
    | zero => simp [bfNextBatch, hex', bfAux]
    | succ n => simp [bfNextBatch, hex', bfAux, hpast]

theorem bfDrain_nil (s : BFGen) (hinv : BFInv s) (hnil : bfSuffix s = [])
    (size fuel : Nat) : drainG bfNextBatch s size fuel = [] := by
  cases fuel with
  | zero => rfl
  | succ fuel =>
    have h := bfNextBatch_none_of_nil s hinv hnil size
    cases hnb : bfNextBatch s size with
    | mk o s2 =>
      rw [hnb] at h
      dsimp only at h
      subst h
      simp [drainG, hnb]

theorem bfDrain_spec : ∀ (fuel : Nat) (s : BFGen), 0 < s.charset.length → BFInv s →
    s.exhausted = false → ∀ size, 1 ≤ size → (bfSuffix s).length ≤ fuel →
    drainG bfNextBatch s size fuel = bfSuffix s := by
  intro fuel
  induction fuel with
  | zero =>
    intro s h0 hinv hex size hs hf
    have hnil : bfSuffix s = [] := List.eq_nil_of_length_eq_zero (by omega)
    rw [hnil]; rfl
  | succ fuel ih =>
    intro s h0 hinv hex size hs hf
    by_cases hempty : bfSuffix s = []
    · rw [hempty]
      exact bfDrain_nil s hinv hempty size (fuel + 1)
    · have haux := bfAux_spec size s h0 hinv
      have hlenpos : 0 < (bfSuffix s).length := List.length_pos.mpr hempty
      have hne : (bfAux s size).1.isEmpty = false := by
        rw [haux.1, List.isEmpty_eq_false_iff_exists_mem]
        have hq : 0 < ((bfSuffix s).take size).length := by
          rw [List.length_take]; omega
        exact ⟨_, List.getElem_mem hq⟩
      have hnext : bfNextBatch s size = (some (bfAux s size).1, (bfAux s size).2) := by
        simp [bfNextBatch, hex, hne]
      have hstep : drainG bfNextBatch s size (fuel + 1) =
          (bfAux s size).1 ++ drainG bfNextBatch (bfAux s size).2 size fuel := by
        rw [drainG, hnext]
      rw [hstep]
      have hif := haux.2.2.2.2.2
      by_cases hcnd : size ≤ (bfSuffix s).length
      · rw [if_pos hcnd] at hif
        obtain ⟨hex2, hsuf2⟩ := hif
        have ih1 := ih (bfAux s size).2 (by rw [haux.2.1]; exact h0) haux.2.2.2.2.1
          (by rw [hex2]; exact hex) size hs
          (by rw [hsuf2, List.length_drop]; omega)
        rw [ih1, hsuf2, haux.1]
        exact List.take_append_drop size _
      · rw [if_neg hcnd] at hif
        rw [bfDrain_exhausted _ _ _ hif, haux.1,
          List.take_of_length_le (by omega), List.append_nil]

theorem bfInit_inv (cs : List Nat) (minL maxL : Nat) (h0 : 0 < cs.length) :
    BFInv (bfInitSt cs minL maxL) := by
  intro _
  constructor
  · dsimp only [bfInitSt]
    rw [List.length_replicate]
    exact digitsLt_zeros _ _ h0
  · simp [bfInitSt]

theorem bfSuffix_init (cs : List Nat) (minL maxL : Nat) :
    bfSuffix (bfInitSt cs minL maxL) = enumBF cs minL maxL := by
  by_cases hle : minL ≤ maxL
  · have h := bfSuffix_def (bfInitSt cs minL maxL) (by dsimp only [bfInitSt]; omega)
    have hrz : bfRank (bfInitSt cs minL maxL) = 0 := by
      show rankOdo (List.replicate minL 0) _ = 0
      exact rankOdo_replicate_zero _ _
    rw [h, hrz, List.drop_zero]
    dsimp only [bfInitSt]
    simp only [enumBF]
    rw [show maxL + 1 - minL = (maxL - minL) + 1 from by omega, List.range'_succ,
      List.flatMap_cons]
  · have hpast := bfSuffix_past (bfInitSt cs minL maxL) (by dsimp only [bfInitSt]; omega)
    rw [hpast]
    simp only [enumBF]
    rw [show maxL + 1 - minL = 0 from by omega]
    rfl

theorem bf_drain_full (cs : List Nat) (minL maxL : Nat) (h0 : 0 < cs.length)
    (size fuel : Nat) (hs : 1 ≤ size) (hf : bfTrueSize cs minL maxL ≤ fuel) :
    drainG bfNextBatch (bfInitSt cs minL maxL) size fuel = enumBF cs minL maxL := by
  have hinv := bfInit_inv cs minL maxL h0
  have hlen : (bfSuffix (bfInitSt cs minL maxL)).length ≤ fuel := by
    rw [bfSuffix_init, enumBF_length]; omega
  have h := bfDrain_spec fuel (bfInitSt cs minL maxL) h0 hinv rfl size hs hlen
  rw [h, bfSuffix_init]

theorem bf_minGtMax_none (cs : List Nat) (minL maxL : Nat) (h : maxL < minL) (size : Nat) :
    (bfNextBatch (bfInitSt cs minL maxL) size).1 = none := by
  cases size with
  | zero => simp [bfNextBatch, bfInitSt, bfAux]
  | succ n => simp [bfNextBatch, bfInitSt, bfAux, h]

theorem satFold (f : Nat → Nat) : ∀ (l : List Nat) (t : Nat), t ≤ U64MAX →
    l.foldl (fun total x => min (total + min (f x) U64MAX) U64MAX) t =
      min (t + (l.map f).sum) U64MAX := by
  intro l
  induction l with
  | nil =>
    intro t ht
    simp
    omega
  | cons x l ih =>
    intro t ht
    rw [List.foldl_cons, ih _ (by omega)]
    simp only [List.map_cons, List.sum_cons]
    omega

theorem bfEstimatedSize_eq (s : BFGen) :
    bfEstimatedSize s =
      min (((List.range' s.minLength (s.maxLength + 1 - s.minLength)).map
        (fun len => s.charset.length ^ (len % 2 ^ 32))).sum) U64MAX := by
  unfold bfEstimatedSize
  rw [satFold (fun len => s.charset.length ^ (len % 2 ^ 32)) _ 0 (Nat.zero_le _)]
  rw [Nat.zero_add]

theorem bfEstimatedSize_exact (s : BFGen) (hmax : s.maxLength < 2 ^ 32)
    (hfit : bfTrueSize s.charset s.minLength s.maxLength ≤ U64MAX) :
    bfEstimatedSize s = bfTrueSize s.charset s.minLength s.maxLength := by
  rw [bfEstimatedSize_eq]
  have hmap : (List.range' s.minLength (s.maxLength + 1 - s.minLength)).map
      (fun len => s.charset.length ^ (len % 2 ^ 32)) =
      (List.range' s.minLength (s.maxLength + 1 - s.minLength)).map
      (fun k => s.charset.length ^ k) := by
    apply List.map_congr_left
    intro k hk
    obtain ⟨i, hi, rfl⟩ := List.mem_range'.mp hk
    congr 1
    omega
  rw [hmap]
  unfold bfTrueSize at hfit ⊢
  exact Nat.min_eq_left hfit

theorem mulModFold : ∀ (l : List Nat) (a : Nat),
    l.foldl (fun x y => x * y % U64MOD) (a % U64MOD) = (a * l.prod) % U64MOD := by
  intro l
  induction l with
  | nil => intro a; simp
  | cons b l ih =>
    intro a
    rw [List.foldl_cons, Nat.mod_mul_mod, ih, List.prod_cons, Nat.mul_assoc]

theorem maskEstimatedSize_eq (s : MaskGen) :
    maskEstimatedSize s = (s.pattern.map List.length).prod % U64MOD := by
  unfold maskEstimatedSize
  have h1 : (1 : Nat) % U64MOD = 1 := by norm_num [U64MOD]
  rw [← h1, mulModFold, Nat.one_mul]

theorem recordOne_inv (targets : List Target) (fm : List (List Char) × List TargetMatch)
    (m : TargetMatch) (hinv : EngInv targets fm.1 fm.2)
    (hm : m.targetId ∈ targets.map Target.id) :
    EngInv targets (recordOne fm m).1 (recordOne fm m).2 := by
  obtain ⟨found, ms⟩ := fm
  obtain ⟨hnd, hsub, hmap⟩ := hinv
  simp only [recordOne]
  by_cases h : m.targetId ∈ found
  · rw [if_pos h]
    exact ⟨hnd, hsub, hmap⟩
  · rw [if_neg h]
    refine ⟨?_, ?_, ?_⟩
    · rw [List.nodup_append]
      exact ⟨hnd, List.nodup_singleton _, fun x hx hx2 => by
        rw [List.mem_singleton] at hx2; subst hx2; exact h hx⟩
    · intro x hx
      rcases List.mem_append.mp hx with hx | hx
      · exact hsub x hx
      · rw [List.mem_singleton] at hx; subst hx; exact hm
    · rw [List.map_append, hmap]
      rfl

theorem foldRecord_inv (targets : List Target) :
    ∀ (ms' : List TargetMatch) (fm : List (List Char) × List TargetMatch),
    EngInv targets fm.1 fm.2 → (∀ m ∈ ms', m.targetId ∈ targets.map Target.id) →
    EngInv targets (ms'.foldl recordOne fm).1 (ms'.foldl recordOne fm).2 := by
  intro ms'
  induction ms' with
  | nil => intro fm hinv _; exact hinv
  | cons m ms' ih =>
    intro fm hinv hall
    rw [List.foldl_cons]
    exact ih (recordOne fm m)
      (recordOne_inv targets fm m hinv (hall m (List.mem_cons_self _ _)))
      (fun x hx => hall x (List.mem_cons_of_mem _ hx))

theorem probeTarget_id (P : HashPrims) (a : Algorithm) (found : List (List Char))
    (g : Nat) (cand : List Nat) (t : Target) (m : TargetMatch) :
    probeTarget P a found g cand t = some m → m.targetId = t.id := by
  intro h
  simp only [probeTarget] at h
  split at h
  · exact absurd h (by simp)
  · split at h <;> split at h <;>
      first
        | (have h2 := Option.some.inj h; subst h2; rfl)
        | simp at h

theorem bucketMatches_ids (P : HashPrims) (a : Algorithm) (found : List (List Char))
    (g : Nat) (batch : List (List Nat)) (ts : List Target) :
    ∀ m ∈ bucketMatches P a found g batch ts, ∃ t ∈ ts, m.targetId = t.id := by
  intro m hm
  simp only [bucketMatches, List.mem_flatMap] at hm
  obtain ⟨cand, _, hm⟩ := hm
  obtain ⟨t, ht, hp⟩ := List.mem_filterMap.mp hm
  exact ⟨t, ht, probeTarget_id P a found g cand t m hp⟩

theorem foldAddBucket_sub (Q : Target → Prop) :
    ∀ (l : List Target) (acc : List (List Char × List Target)),
    (∀ b ∈ acc, ∀ u ∈ b.2, Q u) → (∀ t ∈ l, Q t) →
    ∀ b ∈ l.foldl addBucket acc, ∀ u ∈ b.2, Q u := by
  have hone : ∀ (acc : List (List Char × List Target)) (t : Target),
      (∀ b ∈ acc, ∀ u ∈ b.2, Q u) → Q t →
      ∀ b ∈ addBucket acc t, ∀ u ∈ b.2, Q u := by
    intro acc
    induction acc with
    | nil =>
      intro t _ ht b hb u hu
      simp only [addBucket, List.mem_singleton] at hb
      subst hb
      simp only [List.mem_singleton] at hu
      subst hu
      exact ht
    | cons p rest ih =>
      intro t hacc ht b hb u hu
      obtain ⟨k, ts⟩ := p
      simp only [addBucket] at hb
      split at hb
      · rcases List.mem_cons.mp hb with hb | hb
        · subst hb
          rcases List.mem_append.mp hu with hu | hu
          · exact hacc (k, ts) (List.mem_cons_self _ _) u hu
          · rw [List.mem_singleton] at hu; subst hu; exact ht
        · exact hacc b (List.mem_cons_of_mem _ hb) u hu
      · rcases List.mem_cons.mp hb with hb | hb
        · subst hb
          exact hacc (k, ts) (List.mem_cons_self _ _) u hu
        · exact ih t (fun b2 hb2 => hacc b2 (List.mem_cons_of_mem _ hb2)) ht b hb u hu
  intro l
  induction l with
  | nil => intro acc hacc _ b hb; exact hacc b hb
  | cons t l ih =>
    intro acc hacc hl
    rw [List.foldl_cons]
    exact ih (addBucket acc t)
      (hone acc t hacc (hl t (List.mem_cons_self _ _)))
      (fun u hu => hl u (List.mem_cons_of_mem _ hu))

theorem bucketsOf_sub (targets : List Target) :
    ∀ b ∈ bucketsOf targets, ∀ u ∈ b.2, u ∈ targets := by
  exact foldAddBucket_sub (fun u => u ∈ targets) targets [] (by intro b hb; cases hb)
    (fun t ht => ht)

theorem processBucket_inv (targets : List Target) (P : HashPrims)
    (st : List (List Char) × List TargetMatch) (g : Nat) (batch : List (List Nat))
    (bucket : List Char × List Target) (hinv : EngInv targets st.1 st.2)
    (hb : ∀ u ∈ bucket.2, u ∈ targets) :
    EngInv targets (processBucket P st g batch bucket).1 (processBucket P st g batch bucket).2 := by
  obtain ⟨k, ts⟩ := bucket
  cases ts with
  | nil => simp only [processBucket]; exact hinv
  | cons t0 ts' =>
    simp only [processBucket]
    split
    · exact hinv
    · apply foldRecord_inv targets _ st hinv
      intro m hm
      obtain ⟨t, ht, hid⟩ := bucketMatches_ids P t0.algorithm st.1 g batch (t0 :: ts') m hm
      rw [hid]
      exact List.mem_map_of_mem Target.id (hb t ht)

theorem foldBuckets_inv (targets : List Target) (P : HashPrims) (g : Nat)
    (batch : List (List Nat)) :
    ∀ (bs : List (List Char × List Target)) (fm : List (List Char) × List TargetMatch),
    EngInv targets fm.1 fm.2 → (∀ b ∈ bs, ∀ u ∈ b.2, u ∈ targets) →
    EngInv targets (bs.foldl (fun acc b => processBucket P acc g batch b) fm).1
      (bs.foldl (fun acc b => processBucket P acc g batch b) fm).2 := by
  intro bs
  induction bs with
  | nil => intro fm hinv _; exact hinv
  | cons b bs ih =>
    intro fm hinv hall
    rw [List.foldl_cons]
    exact ih (processBucket P fm g batch b)
      (processBucket_inv targets P fm g batch b hinv (hall b (List.mem_cons_self _ _)))
      (fun b2 hb2 => hall b2 (List.mem_cons_of_mem _ hb2))

theorem engineStep_inv (targets : List Target) (P : HashPrims)
    (buckets : List (List Char × List Target)) (st : EngState) (batch : List (List Nat))
    (hinv : EngInv targets st.found st.matchList)
    (hb : ∀ b ∈ buckets, ∀ u ∈ b.2, u ∈ targets) :
    EngInv targets (engineStep P buckets st batch).found
      (engineStep P buckets st batch).matchList := by
  simp only [engineStep]
  exact foldBuckets_inv targets P st.guesses batch buckets (st.found, st.matchList) hinv hb

theorem engineGo_inv (targets : List Target) (P : HashPrims)
    (buckets : List (List Char × List Target))
    (hb : ∀ b ∈ buckets, ∀ u ∈ b.2, u ∈ targets) :
    ∀ (batches : List (List (List Nat))) (st : EngState),
    EngInv targets st.found st.matchList →
    EngInv targets (engineGo P targets buckets st batches).1.found
      (engineGo P targets buckets st batches).1.matchList := by
  intro batches
  induction batches with
  | nil => intro st hinv; exact hinv
  | cons batch rest ih =>
    intro st hinv
    simp only [engineGo]
    split
    · exact hinv
    · exact ih (engineStep P buckets st batch) (engineStep_inv targets P buckets st batch hinv hb)

theorem engineRun_inv (targets : List Target) (P : HashPrims)
    (batches : List (List (List Nat))) :
    EngInv targets (engineRun P targets batches).1.found
      (engineRun P targets batches).1.matchList := by
  refine engineGo_inv targets P (bucketsOf targets) (bucketsOf_sub targets) batches engineInit
    ⟨List.nodup_nil, ?_, rfl⟩
  intro x hx
  cases hx

theorem U64MOD_pos : 0 < U64MOD := by norm_num [U64MOD]

theorem engineGo_stats (P : HashPrims) (targets : List Target)
    (buckets : List (List Char × List Target)) :
    ∀ (batches : List (List (List Nat))) (st : EngState),
    st.guesses < U64MOD → st.hashes < U64MOD →
    (engineGo P targets buckets st batches).1.guesses =
      (st.guesses + (((engineGo P targets buckets st batches).2.map Prod.fst).sum)) % U64MOD ∧
    (engineGo P targets buckets st batches).1.hashes =
      (st.hashes + (((engineGo P targets buckets st batches).2.map
        (fun p => p.1 * buckets.length)).sum)) % U64MOD := by
  intro batches
  induction batches with
  | nil =>
    intro st hg hh
    simp only [engineGo, List.map_nil, List.sum_nil, Nat.add_zero]
    exact ⟨(Nat.mod_eq_of_lt hg).symm, (Nat.mod_eq_of_lt hh).symm⟩
  | cons batch rest ih =>
    intro st hg hh
    simp only [engineGo]
    split
    · simp only [List.map_nil, List.sum_nil, Nat.add_zero]
      exact ⟨(Nat.mod_eq_of_lt hg).symm, (Nat.mod_eq_of_lt hh).symm⟩
    · have hg' : (engineStep P buckets st batch).guesses =
          (st.guesses + batch.length) % U64MOD := rfl
      have hh' : (engineStep P buckets st batch).hashes =
          (st.hashes + batch.length * buckets.length) % U64MOD := rfl
      have ih1 := ih (engineStep P buckets st batch)
        (by rw [hg']; exact Nat.mod_lt _ U64MOD_pos)
        (by rw [hh']; exact Nat.mod_lt _ U64MOD_pos)
      dsimp only
      constructor
      · rw [ih1.1, hg', List.map_cons, List.sum_cons, Nat.mod_add_mod, Nat.add_assoc]
      · rw [ih1.2, hh', List.map_cons, List.sum_cons, Nat.mod_add_mod, Nat.add_assoc]

theorem charsetFor_nonempty (c : Char) (cs : List Nat) :
    charsetFor c = some cs → cs ≠ [] := by
  intro h
  unfold charsetFor at h
  split at h
  · have h2 := Option.some.inj h; subst h2; decide
  · split at h
    · have h2 := Option.some.inj h; subst h2; decide
    · split at h
      · have h2 := Option.some.inj h; subst h2; decide
      · split at h
        · have h2 := Option.some.inj h; subst h2; decide
        · simp at h

theorem parseMask_nonempty_aux : ∀ (n : Nat) (m : List Char), m.length ≤ n →
    ∀ p, parseMask m = some p → ∀ cs ∈ p, cs ≠ [] := by
  intro n
  induction n with
  | zero =>
    intro m hm p hp cs hcs
    have hm0 : m = [] := List.eq_nil_of_length_eq_zero (by omega)
    subst hm0
    simp only [parseMask] at hp
    have h2 := Option.some.inj hp
    subst h2
    cases hcs
  | succ n ih =>
    intro m hm p hp cs hcs
    cases m with
    | nil =>
      simp only [parseMask] at hp
      have h2 := Option.some.inj hp
      subst h2
      cases hcs
    | cons c1 m1 =>
      cases m1 with
      | nil =>
        simp only [parseMask] at hp
        have h2 := Option.some.inj hp
        subst h2
        rw [List.mem_singleton] at hcs
        subst hcs
        simp
      | cons c2 rest =>
        simp only [parseMask] at hp
        split at hp
        · cases hcf : charsetFor c2 with
          | none => rw [hcf] at hp; simp at hp
          | some cs0 =>
            rw [hcf] at hp
            obtain ⟨q, hq2, hp2⟩ := Option.map_eq_some'.mp hp
            subst hp2
            rcases List.mem_cons.mp hcs with rfl | hcs2
            · exact charsetFor_nonempty c2 cs hcf
            · exact ih rest (by simp at hm; omega) q hq2 cs hcs2
        · obtain ⟨q, hq2, hp2⟩ := Option.map_eq_some'.mp hp
          subst hp2
          rcases List.mem_cons.mp hcs with rfl | hcs2
          · simp
          · exact ih (c2 :: rest) (by simp at hm ⊢; omega) q hq2 cs hcs2

theorem parseMask_nonempty (m : List Char) (p : List (List Nat))
    (hp : parseMask m = some p) : ∀ cs ∈ p, cs ≠ [] :=
  parseMask_nonempty_aux m.length m (Nat.le_refl _) p hp

theorem mapM_getElem (cs : List Nat) : ∀ (ds : List Nat),
    digitsLt ds (List.replicate ds.length cs.length) = true →
    ds.mapM (fun i => cs[i]?) = some (ds.map (fun i => cs.getD i 0)) := by
  intro ds
  induction ds with
  | nil => intro _; rfl
  | cons d ds ih =>
    intro h
    simp only [List.length_cons, List.replicate_succ, digitsLt, Bool.and_eq_true,
      decide_eq_true_eq] at h
    rw [List.mapM_cons, List.getElem?_eq_getElem h.1, ih h.2]
    simp [List.getD_eq_getElem?_getD, List.getElem?_eq_getElem h.1]

theorem bfReach_inv (cs : List Nat) (minL maxL : Nat) (h0 : 0 < cs.length) :
    ∀ s, BFReach cs minL maxL s → s.charset = cs ∧ BFInv s := by
  intro s h
  induction h with
  | init => exact ⟨rfl, bfInit_inv cs minL maxL h0⟩
  | step s n _ ih =>
    obtain ⟨hcs, hinv⟩ := ih
    by_cases hex : s.exhausted = true
    · have hnb : bfNextBatch s n = (none, s) := by simp [bfNextBatch, hex]
      rw [hnb]
      exact ⟨hcs, hinv⟩
    · have hex' : s.exhausted = false := by revert hex; cases s.exhausted <;> simp
      have haux := bfAux_spec n s (by rw [hcs]; exact h0) hinv
      have hsnd : (bfNextBatch s n).2 = (bfAux s n).2 := by
        simp [bfNextBatch, hex']
      rw [hsnd]
      exact ⟨by rw [haux.2.1, hcs], haux.2.2.2.2.1⟩

/-- Claim C1, as stated, is false on the code: the statistics update at
engine.rs line 175 multiplies the batch size by the total number of
algorithm buckets, not by the number of active ones. Concretely: two
targets in two buckets, the md5 one cracked in batch one; in batch two
only one bucket is active (trace entry (1, 1)) yet hashes_computed ends
at 1*2 + 1*2 = 4, whereas the claimed active-bucket accounting would end
at 1*2 + 1*1 = 3. -/
theorem claim_C1_counterexample :
    (engineRun idPrims [targetA, targetB] [[[97]], [[98]]]).2 = [(1, 2), (1, 1)] ∧
    (engineRun idPrims [targetA, targetB] [[[97]], [[98]]]).1.hashes = 4 ∧
    ((engineRun idPrims [targetA, targetB] [[[97]], [[98]]]).2.map
      (fun p => p.1 * p.2)).sum = 3 ∧
    (4 : Nat) ≠ 3 := by
  refine ⟨by decide, by decide, by decide, by decide⟩

/-- Claim C1 (amended): for every run and every batch, the statistics
update increments guesses_tried by the actual batch size and increments
hashes_computed by the actual batch size multiplied by the total number
of distinct algorithm buckets, in wrapping u64 arithmetic, even though
the engine skips fully-solved buckets when hashing the batch. Summed
over the consumed-batch trace this gives the two counters below. -/
theorem claim_C1 (P : HashPrims) (targets : List Target)
    (batches : List (List (List Nat))) :
    (engineRun P targets batches).1.guesses =
      (((engineRun P targets batches).2.map Prod.fst).sum) % U64MOD ∧
    (engineRun P targets batches).1.hashes =
      (((engineRun P targets batches).2.map
        (fun p => p.1 * (bucketsOf targets).length)).sum) % U64MOD := by
  have h := engineGo_stats P targets (bucketsOf targets) batches engineInit
    U64MOD_pos U64MOD_pos
  have h1 : (engineRun P targets batches).1.guesses =
      (engineInit.guesses + ((engineRun P targets batches).2.map Prod.fst).sum) % U64MOD :=
    h.1
  have h2 : (engineRun P targets batches).1.hashes =
      (engineInit.hashes + ((engineRun P targets batches).2.map
        (fun p => p.1 * (bucketsOf targets).length)).sum) % U64MOD := h.2
  rw [show engineInit.guesses = 0 from rfl, Nat.zero_add] at h1
  rw [show engineInit.hashes = 0 from rfl, Nat.zero_add] at h2
  exact ⟨h1, h2⟩

/-- Claim C2: the dictionary generator violates the sticky no-batch
contract. With lines blank, blank, blank, hello and batch size 3, the
first next_batch call consumes the three blank lines, collects nothing,
and returns no batch as if the keyspace were exhausted; the following
call then returns the candidate hello. -/
theorem claim_C2 :
    (dictNextBatch [[10], [10], [10], [104, 101, 108, 108, 111, 10]] 3).1 = none ∧
    (dictNextBatch
      (dictNextBatch [[10], [10], [10], [104, 101, 108, 108, 111, 10]] 3).2 3).1 =
      some [[104, 101, 108, 108, 111]] := by
  refine ⟨by decide, by decide⟩

/-- Claim C3, as stated, is false on the code: loading a target with a
malformed hash_hex succeeds, because deserialisation stores the hex
string without decoding it; hex decoding happens inside Target.matches
with unwrap_or_default. Here a non-hex string zz loads fine. -/
theorem claim_C3_counterexample :
    loadTarget ['t', '1'] ['a'] ['m', 'd', '5'] ['z', 'z'] [] =
      some { id := ['t', '1'], username := ['a'], algorithm := .md5,
             hash := ['z', 'z'], salt := [] } ∧
    hexDecode ['z', 'z'] = none := by
  refine ⟨by decide, by decide⟩

/-- Claim C3 (amended): loading a target succeeds exactly when the
algorithm tag parses, independently of the hash_hex string; hex decoding
happens at match time inside Target.matches, where a malformed string
decodes to the empty byte string, and the comparison is byte equality
between the computed digest and that decoded value. -/
theorem claim_C3 :
    (∀ (id username hashAlgo hashHex salt : List Char),
      (loadTarget id username hashAlgo hashHex salt).isSome = (parseAlgo hashAlgo).isSome) ∧
    (∀ (t : Target) (computed : List Nat),
      t.matchesDigest computed = true ↔ computed = (hexDecode t.hash).getD []) := by
  constructor
  · intro id0 u a h s0
    unfold loadTarget
    cases parseAlgo a <;> rfl
  · intro t computed
    unfold Target.matchesDigest
    exact beq_iff_eq

/-- Claim C4, as stated, is false on the code at the u64 boundary: for
charset ab with min and max length 64 the true keyspace is 2 to the 64
candidates, but estimated_size saturates at u64 MAX, one less. -/
theorem claim_C4_counterexample :
    bfEstimatedSize (bfInitSt [97, 98] 64 64) = 2 ^ 64 - 1 ∧
    (drainG bfNextBatch (bfInitSt [97, 98] 64 64) 1 (2 ^ 64)).length = 2 ^ 64 ∧
    (2 : Nat) ^ 64 ≠ 2 ^ 64 - 1 := by
  refine ⟨by decide, ?_, by norm_num⟩
  have h := bf_drain_full [97, 98] 64 64 (by decide) 1 (2 ^ 64) (by decide) (by decide)
  rw [h, enumBF_length]
  decide

/-- Claim C4 (amended): the total count of candidates produced across
all next_batch calls until exhaustion is the exact keyspace size: for
the mask generator the product of the CharSet sizes, for brute force the
sum over k of charset size to the k. This equals estimated_size whenever
that exact value fits in u64: the mask estimate is the product in
wrapping u64 arithmetic, and the brute-force estimate saturates at
u64 MAX (with the length cast to u32 in the exponent). -/
theorem claim_C4 :
    (∀ (p : List (List Nat)) (size fuel : Nat), (∀ cs ∈ p, cs ≠ []) → 1 ≤ size →
      (p.map List.length).prod ≤ fuel →
      (drainG maskNextBatch (maskInit p) size fuel).length = (p.map List.length).prod ∧
      ((p.map List.length).prod < U64MOD →
        maskEstimatedSize (maskInit p) = (p.map List.length).prod)) ∧
    (∀ (cs : List Nat) (minL maxL size fuel : Nat), 0 < cs.length → 1 ≤ size →
      bfTrueSize cs minL maxL ≤ fuel →
      (drainG bfNextBatch (bfInitSt cs minL maxL) size fuel).length =
        bfTrueSize cs minL maxL ∧
      (maxL < 2 ^ 32 → bfTrueSize cs minL maxL ≤ U64MAX →
        bfEstimatedSize (bfInitSt cs minL maxL) = bfTrueSize cs minL maxL)) := by
  constructor
  · intro p size fuel hne hs hf
    constructor
    · rw [mask_drain_full p hne size fuel hs hf, enumOdo_length]
    · intro hlt
      rw [maskEstimatedSize_eq]
      dsimp only [maskInit]
      exact Nat.mod_eq_of_lt hlt
  · intro cs minL maxL size fuel h0 hs hf
    constructor
    · rw [bf_drain_full cs minL maxL h0 size fuel hs hf, enumBF_length]
    · intro h32 hfit
      exact bfEstimatedSize_exact (bfInitSt cs minL maxL) h32 hfit

/-- Witness for the amended claim C4 at a concrete instance: the mask
over the single two-character CharSet 01 produces exactly two candidates
and reports estimated size two. -/
theorem claim_C4_witness :
    (drainG maskNextBatch (maskInit [[48, 49]]) 1 3).length =
      ([[48, 49]].map List.length).prod ∧
    maskEstimatedSize (maskInit [[48, 49]]) = ([[48, 49]].map List.length).prod := by
  have h := claim_C4.1 [[48, 49]] 1 3 (by decide) (by decide) (by decide)
  exact ⟨h.1, h.2 (by decide)⟩

set_option maxRecDepth 16384 in
/-- Claim C5: the mask generator enumerates exactly the Cartesian
product of the per-position CharSets in odometer order (rightmost
position fastest); the first five candidates of mask question-d
question-d are 00 01 02 03 04, and mask question-l question-d yields
exactly 260 candidates. -/
theorem claim_C5 :
    (∀ (m : List Char) (p : List (List Nat)) (size fuel : Nat),
      parseMask m = some p → 1 ≤ size → (p.map List.length).prod ≤ fuel →
      drainG maskNextBatch (maskInit p) size fuel = enumOdo p) ∧
    (maskNew ['?', 'd', '?', 'd']).map (fun s => (maskNextBatch s 5).1) =
      some (some [[48, 48], [48, 49], [48, 50], [48, 51], [48, 52]]) ∧
    (maskNew ['?', 'l', '?', 'd']).map (fun s => (drainG maskNextBatch s 260 2).length) =
      some 260 := by
  refine ⟨?_, by decide, by decide⟩
  intro m p size fuel hp hs hf
  exact mask_drain_full p (parseMask_nonempty m p hp) size fuel hs hf

/-- Witness for claim C5 at a concrete mask: draining the generator of
mask question-d yields the ten digit strings in order. -/
theorem claim_C5_witness :
    drainG maskNextBatch (maskInit [List.range' 48 10]) 1 10 =
      enumOdo [List.range' 48 10] :=
  claim_C5.1 ['?', 'd'] [List.range' 48 10] 1 10 (by decide) (by decide) (by decide)

/-- Claim C6: the brute-force generator enumerates all lengths from
min_len up to max_len in order, each length in odometer order; charset
ab with min and max 2 yields exactly aa ab ba bb in that order; and when
min_len exceeds max_len the very first next_batch returns no batch. -/
theorem claim_C6 :
    (∀ (cs : List Char) (minL maxL size fuel : Nat), 0 < cs.length → 1 ≤ size →
      bfTrueSize (cs.map Char.toNat) minL maxL ≤ fuel →
      drainG bfNextBatch (bfNew cs minL maxL) size fuel =
        enumBF (cs.map Char.toNat) minL maxL) ∧
    (bfNextBatch (bfNew ['a', 'b'] 2 2) 10).1 =
      some [[97, 97], [97, 98], [98, 97], [98, 98]] ∧
    (∀ (cs : List Char) (minL maxL size : Nat), maxL < minL →
      (bfNextBatch (bfNew cs minL maxL) size).1 = none) := by
  refine ⟨?_, by decide, ?_⟩
  · intro cs minL maxL size fuel h0 hs hf
    exact bf_drain_full (cs.map Char.toNat) minL maxL (by simpa using h0) size fuel hs hf
  · intro cs minL maxL size h
    exact bf_minGtMax_none (cs.map Char.toNat) minL maxL h size

/-- Witness for claim C6 at a concrete instance: charset ab over lengths
one to two yields the six candidates a b aa ab ba bb, and a generator
born with min 3 and max 2 answers no batch immediately. -/
theorem claim_C6_witness :
    drainG bfNextBatch (bfNew ['a', 'b'] 1 2) 3 7 = enumBF [97, 98] 1 2 ∧
    (bfNextBatch (bfNew ['a', 'b'] 3 2) 5).1 = none :=
  ⟨claim_C6.1 ['a', 'b'] 1 2 3 7 (by decide) (by decide) (by decide),
   claim_C6.2.2 ['a', 'b'] 3 2 5 (by decide)⟩

/-- Claim C7: for every hasher, password and salt, the salted digest
equals the plain digest of salt concatenated before the password with no
separator, whatever the underlying primitive digest functions are. -/
theorem claim_C7 (P : HashPrims) (a : Algorithm) (p s : List Nat) :
    hasherHashWithSalt P a p s = hasherHash P a (s ++ p) := by
  cases a <;>
    simp [hasherHash, hasherHashWithSalt, blitzHashFn, blitzHashWithSalt, md5HashFn,
      md5HashWithSalt, sha1HashFn, sha1HashWithSalt, sha256HashFn, sha256HashWithSalt,
      md4HashFn, md4HashWithSalt, digestUpdate, digestFinalize]

/-- Claim C8: every run returns at most as many matches as there are
targets, the target ids of the matches are pairwise distinct (at most
one match per target id), and every match carries the id of one of the
input targets. -/
theorem claim_C8 (P : HashPrims) (targets : List Target)
    (batches : List (List (List Nat))) :
    (engineRun P targets batches).1.matchList.length ≤ targets.length ∧
    (∀ m ∈ (engineRun P targets batches).1.matchList,
      m.targetId ∈ targets.map Target.id) ∧
    (engineRun P targets batches).1.matchList.Pairwise
      (fun m1 m2 => m1.targetId ≠ m2.targetId) := by
  obtain ⟨hnd, hsub, hmap⟩ := engineRun_inv targets P batches
  refine ⟨?_, ?_, ?_⟩
  · have hlen : (engineRun P targets batches).1.matchList.length =
        (engineRun P targets batches).1.found.length := by
      rw [← hmap, List.length_map]
    rw [hlen]
    have hsp := List.subperm_of_subset hnd (fun x hx => hsub x hx)
    calc (engineRun P targets batches).1.found.length
        ≤ (targets.map Target.id).length := hsp.length_le
      _ = targets.length := List.length_map _ _
  · intro m hm
    have hmem : m.targetId ∈ (engineRun P targets batches).1.found := by
      rw [← hmap]
      exact List.mem_map_of_mem TargetMatch.targetId hm
    exact hsub _ hmem
  · have hnd2 : ((engineRun P targets batches).1.matchList.map
        TargetMatch.targetId).Nodup := by
      rw [hmap]; exact hnd
    exact (List.pairwise_map).mp hnd2

/-- Claim C9: for every run, the final guesses_tried equals the sum of
the actual sizes of the batches consumed from the generator, provided
that sum fits in u64 (the counter is a u64 and wraps otherwise). -/
theorem claim_C9 (P : HashPrims) (targets : List Target)
    (batches : List (List (List Nat)))
    (h : (((engineRun P targets batches).2.map Prod.fst).sum) < U64MOD) :
    (engineRun P targets batches).1.guesses =
      ((engineRun P targets batches).2.map Prod.fst).sum := by
  have hst : (engineRun P targets batches).1.guesses =
      (engineInit.guesses + ((engineRun P targets batches).2.map Prod.fst).sum) % U64MOD :=
    (engineGo_stats P targets (bucketsOf targets) batches engineInit
      U64MOD_pos U64MOD_pos).1
  rw [show engineInit.guesses = 0 from rfl, Nat.zero_add] at hst
  rw [hst]
  exact Nat.mod_eq_of_lt h

/-- Witness for claim C9: one target, one batch of one candidate, and
the final guesses_tried equals the consumed total of one. -/
theorem claim_C9_witness :
    (engineRun idPrims [targetA] [[[97]]]).1.guesses =
      ((engineRun idPrims [targetA] [[[97]]]).2.map Prod.fst).sum :=
  claim_C9 idPrims [targetA] [[[97]]] (by decide)

/-- Claim C10: for a brute-force generator over a non-empty charset,
every state reachable through next_batch calls keeps every index of the
current vector strictly below the charset length whenever the state is
about to emit candidates (current length within max length), so the
checked candidate construction never takes the out-of-bounds branch and
agrees with the total one from the source. -/
theorem claim_C10 (cs : List Nat) (minL maxL : Nat) (h0 : 0 < cs.length) (s : BFGen)
    (hr : BFReach cs minL maxL s) (hle : s.currentLength ≤ s.maxLength) :
    bfCandChecked s = some (bfCand s) := by
  obtain ⟨hcs, hinv⟩ := bfReach_inv cs minL maxL h0 s hr
  obtain ⟨hd, _⟩ := hinv hle
  exact mapM_getElem s.charset s.current hd

/-- Witness for claim C10: the state reached after one batch of one
candidate over charset ab still reads its charset in bounds. -/
theorem claim_C10_witness :
    bfCandChecked ((bfNextBatch (bfInitSt [97, 98] 1 2) 1).2) =
      some (bfCand ((bfNextBatch (bfInitSt [97, 98] 1 2) 1).2)) :=
  claim_C10 [97, 98] 1 2 (by decide) _
    (BFReach.step (bfInitSt [97, 98] 1 2) 1 BFReach.init) (by decide)

end BlitzForge
